import Mathlib

set_option maxRecDepth 8000

/-!
Verification of `src/image_resizer.py`, a Pillow-based batch image resizer.

The dimension arithmetic in `resize_image` (lines 71–100) is carried out in
Python floats, i.e. IEEE-754 binary64.  We model a nonnegative binary64 value
exactly as a dyadic rational `mant * 2 ^ exp` and implement every operation the
source performs (int/int true division, int-to-float conversion, float
multiplication and division, comparison, truncation by `int(...)`) as the
correctly rounded operation with 53 significant bits, round-to-nearest,
ties-to-even.  The exponent is unbounded: overflow and subnormals are not
modelled, which is faithful for every quantity arising in the claims (all are
far inside the double range).

The JPEG transparency normalization (lines 110–117) is modelled at pixel level;
`Image.paste` with an alpha mask follows Pillow's `BLEND`/`MULDIV255`
arithmetic from libImaging.  The batch driver (lines 131–203) is modelled over
a list of input files, where a file that Pillow cannot decode is an input with
`decoded = none` (the `except` branch of `resize_image` turns any such failure
into a `False` return).
-/

namespace ImageResizer

/-- Fuel-driven floor of the binary logarithm; the fuel only has to dominate
the number of halvings, so `log2Aux n n` is always exact and the kernel can
evaluate it on large literals. -/
def log2Aux : ℕ → ℕ → ℕ
  | 0, _ => 0
  | f + 1, m => if 2 ≤ m then log2Aux f (m / 2) + 1 else 0

/-- Kernel-evaluable `Nat.log2`. -/
def nlog2 (n : ℕ) : ℕ := log2Aux n n

/-- A nonnegative IEEE-754 binary64 value, represented exactly as
`mant * 2 ^ exp`.  Zero is `mant = 0`. -/
structure F64 where
  mant : ℕ
  exp : ℤ
  deriving DecidableEq

/-- The exact rational value of a represented float. -/
def val (x : F64) : ℚ := x.mant * (2 : ℚ) ^ x.exp

/-- The float zero. -/
def fzero : F64 := ⟨0, 0⟩

/-- Round `n / d` to the nearest integer, ties to even. -/
def roundNE (n d : ℕ) : ℕ :=
  if d < 2 * (n % d) then n / d + 1
  else if 2 * (n % d) < d then n / d
  else if n / d % 2 = 0 then n / d else n / d + 1

/-- Binary exponent of `a / b` for positive naturals: the unique `e` with
`2 ^ e ≤ a / b < 2 ^ (e + 1)`. -/
def sigExp (a b : ℕ) : ℤ :=
  if b * 2 ^ nlog2 a ≤ a * 2 ^ nlog2 b then (nlog2 a : ℤ) - nlog2 b
  else (nlog2 a : ℤ) - nlog2 b - 1

/-- The integer mantissa of the rounding of `a / b`: the quotient is scaled
into `[2 ^ 52, 2 ^ 53)` and rounded to the nearest integer, ties to even. -/
def sigMant (a b : ℕ) : ℕ :=
  roundNE (a * 2 ^ (52 - sigExp a b).toNat) (b * 2 ^ (-(52 - sigExp a b)).toNat)

/-- Correctly round `(a / b) * 2 ^ off` (for `a, b ≥ 1`) to 53 significant
bits, round-to-nearest, ties-to-even. -/
def roundSig (a b : ℕ) (off : ℤ) : F64 :=
  if sigMant a b = 2 ^ 53 then ⟨2 ^ 52, off + sigExp a b - 51⟩
  else ⟨sigMant a b, off + sigExp a b - 52⟩

/-- Python `a / b` on two nonnegative ints: correctly rounded true division. -/
def divNat (a b : ℕ) : F64 := if a = 0 then fzero else roundSig a b 0

/-- Python `float(n)` (also the implicit conversion in `int * float`):
correctly rounded conversion of a nonnegative int. -/
def floatOfNat (n : ℕ) : F64 := if n = 0 then fzero else roundSig n 1 0

/-- IEEE multiplication of two nonnegative doubles. -/
def fmul (x y : F64) : F64 :=
  if x.mant = 0 ∨ y.mant = 0 then fzero
  else roundSig (x.mant * y.mant) 1 (x.exp + y.exp)

/-- IEEE division of two nonnegative doubles. -/
def fdiv (x y : F64) : F64 :=
  if x.mant = 0 then fzero else roundSig x.mant y.mant (x.exp - y.exp)

/-- Exact comparison `x < y` of two represented doubles (float comparison is
exact on the represented values). -/
def fltB (x y : F64) : Bool :=
  x.mant * 2 ^ (x.exp - y.exp).toNat < y.mant * 2 ^ (y.exp - x.exp).toNat

/-- Python `int(x)` for a nonnegative double: truncation toward zero. -/
def ffloor (x : F64) : ℕ :=
  if 0 ≤ x.exp then x.mant * 2 ^ x.exp.toNat else x.mant / 2 ^ (-x.exp).toNat

/-- Python truthiness of an optional integer argument: `None` and `0` are
falsy (`if width and height:` etc.). -/
def intTruthy (o : Option ℕ) : Bool := o.getD 0 != 0

/-- Dimension resolution of `resize_image`, lines 71–100.  `none` is the
`return False` path (no dimensions given) or a `ZeroDivisionError` escaping to
the `except` handler (division by a zero original dimension).  All arithmetic
is the IEEE binary64 arithmetic Python performs. -/
def resolveDims (ow oh : ℕ) (width height : Option ℕ) (maintainAspect : Bool) :
    Option (ℕ × ℕ) :=
  if intTruthy width && intTruthy height then
    let W := width.getD 0
    let H := height.getD 0
    if maintainAspect then
      if oh = 0 then none
      else
        let aspect := divNat ow oh
        if fltB aspect (divNat W H) then
          some (ffloor (fmul (floatOfNat H) aspect), H)
        else
          some (W, ffloor (fdiv (floatOfNat W) aspect))
    else some (W, H)
  else if intTruthy width then
    if ow = 0 then none
    else some (width.getD 0, ffloor (fmul (floatOfNat (width.getD 0)) (divNat oh ow)))
  else if intTruthy height then
    if oh = 0 then none
    else some (ffloor (fmul (floatOfNat (height.getD 0)) (divNat ow oh)), height.getD 0)
  else none

/-- Pillow color modes relevant to `resize_image`'s save path. -/
inductive Mode
  | RGB
  | RGBA
  | LA
  | P
  | L
  deriving DecidableEq

/-- One pixel.  Channel meaning depends on the mode: RGB/RGBA use `r g b a`
(`a` is 255 in RGB); LA stores luminance in `r` and alpha in `a`; P stores the
palette index in `r`; L stores luminance in `r`. -/
structure Px where
  r : ℕ
  g : ℕ
  b : ℕ
  a : ℕ
  deriving DecidableEq

/-- A decoded raster.  `palette` carries the RGBA palette entries of a
mode-`P` image (Pillow transparency info is the alpha of an entry) and is
ignored in the other modes. -/
structure Img where
  mode : Mode
  pix : List Px
  palette : List Px
  deriving DecidableEq

/-- Pillow's rounded division by 255 (`MULDIV255` in libImaging):
`((t >> 8) + t) >> 8` with `t = x * y + 128`. -/
def mulDiv255 (x y : ℕ) : ℕ := ((x * y + 128) / 256 + (x * y + 128)) / 256

/-- Pillow's `BLEND(mask, bg, fg)` for one channel. -/
def blendChannel (bg fg a : ℕ) : ℕ := mulDiv255 bg (255 - a) + mulDiv255 fg a

/-- Compositing one RGBA pixel over a white background with its alpha as the
blend mask (`rgb_img.paste(resized_img, mask=alpha)` onto a white RGB image). -/
def blendOverWhite (p : Px) : Px :=
  ⟨blendChannel 255 p.r p.a, blendChannel 255 p.g p.a, blendChannel 255 p.b p.a, 255⟩

/-- Pasting an LA pixel into an RGB image without a mask: the source is
converted to RGB (alpha dropped, luminance replicated) and overwrites the
background. -/
def laToRGB (p : Px) : Px := ⟨p.r, p.r, p.r, 255⟩

/-- Palette lookup for one mode-`P` pixel. -/
def pLookup (pal : List Px) (p : Px) : Px := pal.getD p.r ⟨0, 0, 0, 255⟩

/-- Pillow `convert('RGBA')` on a mode-`P` image: palette expansion. -/
def pToRGBA (img : Img) : Img :=
  ⟨Mode.RGBA, img.pix.map (pLookup img.palette), img.palette⟩

/-- JPEG color-mode normalization, `resize_image` lines 110–117: for modes
RGBA, LA and P a white RGB canvas is created; P is first converted to RGBA;
the canvas paste uses the alpha channel as mask only when the (possibly
converted) mode is RGBA. -/
def convertForJPEG (resized : Img) : Img :=
  if resized.mode = Mode.RGBA ∨ resized.mode = Mode.LA ∨ resized.mode = Mode.P then
    let resized1 := if resized.mode = Mode.P then pToRGBA resized else resized
    if resized1.mode = Mode.RGBA then
      ⟨Mode.RGB, resized1.pix.map blendOverWhite, []⟩
    else
      ⟨Mode.RGB, resized1.pix.map laToRGB, []⟩
  else resized

/-- ASCII uppercase of one character. -/
def charUpper (c : Char) : Char :=
  if 97 ≤ c.toNat ∧ c.toNat ≤ 122 then Char.ofNat (c.toNat - 32) else c

/-- ASCII lowercase of one character. -/
def charLower (c : Char) : Char :=
  if 65 ≤ c.toNat ∧ c.toNat ≤ 90 then Char.ofNat (c.toNat + 32) else c

/-- Python `str.upper()` (ASCII range, as used for format names). -/
def strUpper (s : String) : String := ⟨s.data.map charUpper⟩

/-- Python `str.lower()` (ASCII range, as used for format names). -/
def strLower (s : String) : String := ⟨s.data.map charLower⟩

/-- The test `output_format.upper() in ['JPEG', 'JPG']`. -/
def isJpegName (s : String) : Bool := strUpper s == "JPEG" || strUpper s == "JPG"

/-- Lines 106–107: `if output_format is None: output_format = img.format or
'PNG'`. -/
def effectiveFormat (outputFormat nativeFormat : Option String) : String :=
  match outputFormat with
  | some f => f
  | none => if nativeFormat.getD "" = "" then "PNG" else nativeFormat.getD ""

/-- The arguments `resize_image` hands to Pillow's encoder. -/
structure SaveCall where
  img : Img
  fmt : String
  quality : Option ℕ
  optimize : Bool
  deriving DecidableEq

/-- Lines 106–120: format selection, JPEG color normalization, and the save
call.  Only the JPEG branch passes `quality` and `optimize=True`. -/
def saveStep (resized : Img) (outputFormat nativeFormat : Option String)
    (quality : ℕ) : SaveCall :=
  let fmt := effectiveFormat outputFormat nativeFormat
  if isJpegName fmt then ⟨convertForJPEG resized, fmt, some quality, true⟩
  else ⟨resized, fmt, none, false⟩

/-- Decoded source image as the batch sees it. -/
structure SourceImage where
  w : ℕ
  h : ℕ
  mode : Mode
  fmt : Option String
  deriving DecidableEq

/-- One enumerated input file; `decoded = none` means Pillow raises on open
(corrupt or unsupported content), which `resize_image` catches. -/
structure InputFile where
  stem : String
  ext : String
  decoded : Option SourceImage
  deriving DecidableEq

/-- The keyword configuration of `batch_resize_images`. -/
structure Config where
  width : Option ℕ
  height : Option ℕ
  maintainAspect : Bool
  quality : ℕ
  outputFormat : Option String
  pre : String
  suf : String
  deriving DecidableEq

/-- The statistics dict returned by `batch_resize_images`. -/
structure Summary where
  total : ℕ
  success : ℕ
  failed : ℕ
  deriving DecidableEq

/-- Whether `resize_image` returns `True` for one file: decoding must succeed
and the dimension resolution must not hit the warning/exception path. -/
def resizeImageOk (cfg : Config) (f : InputFile) : Bool :=
  match f.decoded with
  | none => false
  | some img => (resolveDims img.w img.h cfg.width cfg.height cfg.maintainAspect).isSome

/-- Python string truthiness: `None` and the empty string are falsy. -/
def strTruthy (o : Option String) : Bool := o.getD "" != ""

/-- Output filename construction, lines 171–184: with a truthy
`output_format`, JPEG/JPG maps to `.jpg` and anything else to
`.<lowercased format>`; otherwise the input file's own extension is reused. -/
def outputFilename (cfg : Config) (f : InputFile) : String :=
  let ext :=
    if strTruthy cfg.outputFormat then
      if isJpegName (cfg.outputFormat.getD "") then ".jpg"
      else "." ++ strLower (cfg.outputFormat.getD "")
    else f.ext
  cfg.pre ++ f.stem ++ cfg.suf ++ ext

/-- Modelled from the spec (§6 Output naming), for the C6 refinement
comparison only: `extensionFor(effectiveFormat)` where JPEG/JPG maps to
`.jpg` and others to `.<lowercase format name>`. -/
def specExtensionFor (fmt : String) : String :=
  if isJpegName fmt then ".jpg" else "." ++ strLower fmt

/-- Modelled from the spec (§6 Output naming), for the C6 refinement
comparison only: `outputFilename = prefix + originalStem + suffix +
extensionFor(effectiveFormat)` with `effectiveFormat = request.outputFormat if
set else image.nativeFormat if set else PNG`. -/
def specOutputFilename (cfg : Config) (f : InputFile) : String :=
  cfg.pre ++ f.stem ++ cfg.suf ++
    specExtensionFor (effectiveFormat cfg.outputFormat (f.decoded.bind SourceImage.fmt))

/-- The per-file loop of `batch_resize_images`, lines 170–192, threading the
`(success_count, failed_count)` accumulator. -/
def batchLoop (cfg : Config) : List InputFile → ℕ × ℕ → ℕ × ℕ
  | [], acc => acc
  | f :: fs, acc =>
      batchLoop cfg fs (if resizeImageOk cfg f then (acc.1 + 1, acc.2) else (acc.1, acc.2 + 1))

/-- `batch_resize_images`, lines 131–203: empty enumeration returns the zero
summary immediately; otherwise every file is processed and counted. -/
def batch_resize_images (cfg : Config) (files : List InputFile) : Summary :=
  if files.isEmpty then ⟨0, 0, 0⟩
  else
    let p := batchLoop cfg files (0, 0)
    ⟨files.length, p.1, p.2⟩

/-! Correctness of the rounding model: `roundSig a b off` is within half an
ulp of `(a / b) * 2 ^ off`, hence within relative error `2 ^ (-53)`. -/

theorem log2Aux_eq (f : ℕ) : ∀ m, m ≤ f → log2Aux f m = Nat.log2 m := by
  induction f with
  | zero =>
    intro m hm
    have hm0 : m = 0 := by omega
    subst hm0
    rw [Nat.log2]
    rfl
  | succ f ih =>
    intro m hm
    by_cases h2 : 2 ≤ m
    · rw [log2Aux, Nat.log2, if_pos h2, if_pos h2, ih (m / 2) (by omega)]
    · rw [log2Aux, Nat.log2, if_neg h2, if_neg h2]

theorem nlog2_eq (n : ℕ) : nlog2 n = Nat.log2 n := log2Aux_eq n n le_rfl

theorem roundNE_close (n d : ℕ) (hd : d ≠ 0) : |(roundNE n d : ℚ) - n / d| ≤ 1 / 2 := by
  have hdq : (0 : ℚ) < d := by exact_mod_cast Nat.pos_of_ne_zero hd
  have hr : n % d < d := Nat.mod_lt _ (Nat.pos_of_ne_zero hd)
  have hcast : (d : ℚ) * (n / d : ℕ) + (n % d : ℕ) = n := by exact_mod_cast Nat.div_add_mod n d
  have hfrac : (n : ℚ) / d = (n / d : ℕ) + (n % d : ℕ) / d := by
    rw [div_eq_iff (ne_of_gt hdq), add_mul, div_mul_cancel₀ _ (ne_of_gt hdq)]
    linear_combination -hcast
  have hfr0 : (0 : ℚ) ≤ (n % d : ℕ) / d := by positivity
  have hfr1 : ((n % d : ℕ) : ℚ) / d < 1 := (div_lt_one hdq).2 (by exact_mod_cast hr)
  unfold roundNE
  split_ifs with h1 h2 h3 <;> rw [abs_le] <;> constructor <;> push_cast <;> rw [hfrac]
  · linarith
  · have h1' : (d : ℚ) < 2 * (n % d : ℕ) := by exact_mod_cast h1
    have hhalf : (1 : ℚ) / 2 < (n % d : ℕ) / d := by
      rw [div_lt_div_iff (by norm_num) hdq]
      linarith
    linarith
  · have h2' : (2 : ℚ) * (n % d : ℕ) < d := by exact_mod_cast h2
    have hhalf : ((n % d : ℕ) : ℚ) / d < 1 / 2 := by
      rw [div_lt_div_iff hdq (by norm_num)]
      linarith
    linarith
  · linarith
  · have he : 2 * (n % d) = d := by omega
    have he' : (2 : ℚ) * (n % d : ℕ) = d := by exact_mod_cast he
    have hhalf : ((n % d : ℕ) : ℚ) / d = 1 / 2 := by
      rw [div_eq_div_iff (ne_of_gt hdq) (by norm_num)]
      linarith
    linarith
  · have he : 2 * (n % d) = d := by omega
    have he' : (2 : ℚ) * (n % d : ℕ) = d := by exact_mod_cast he
    have hhalf : ((n % d : ℕ) : ℚ) / d = 1 / 2 := by
      rw [div_eq_div_iff (ne_of_gt hdq) (by norm_num)]
      linarith
    linarith
  · have he : 2 * (n % d) = d := by omega
    have he' : (2 : ℚ) * (n % d : ℕ) = d := by exact_mod_cast he
    have hhalf : ((n % d : ℕ) : ℚ) / d = 1 / 2 := by
      rw [div_eq_div_iff (ne_of_gt hdq) (by norm_num)]
      linarith
    linarith
  · have he : 2 * (n % d) = d := by omega
    have he' : (2 : ℚ) * (n % d : ℕ) = d := by exact_mod_cast he
    have hhalf : ((n % d : ℕ) : ℚ) / d = 1 / 2 := by
      rw [div_eq_div_iff (ne_of_gt hdq) (by norm_num)]
      linarith
    linarith

theorem sigExp_spec (a b : ℕ) (ha : a ≠ 0) (hb : b ≠ 0) :
    (2 : ℚ) ^ sigExp a b ≤ (a : ℚ) / b ∧ (a : ℚ) / b < 2 ^ (sigExp a b + 1) := by
  have haq : (0 : ℚ) < a := by exact_mod_cast Nat.pos_of_ne_zero ha
  have hbq : (0 : ℚ) < b := by exact_mod_cast Nat.pos_of_ne_zero hb
  have h1 : ((2 : ℚ) ^ Nat.log2 a) ≤ a := by exact_mod_cast Nat.log2_self_le ha
  have h2 : (a : ℚ) < 2 ^ (Nat.log2 a + 1) := by exact_mod_cast Nat.lt_log2_self
  have h3 : ((2 : ℚ) ^ Nat.log2 b) ≤ b := by exact_mod_cast Nat.log2_self_le hb
  have h4 : (b : ℚ) < 2 ^ (Nat.log2 b + 1) := by exact_mod_cast Nat.lt_log2_self
  have key : ∀ m n : ℕ, (2 : ℚ) ^ ((m : ℤ) - n) = 2 ^ m / 2 ^ n := fun m n => by
    rw [zpow_sub₀ two_ne_zero, zpow_natCast, zpow_natCast]
  unfold sigExp
  rw [nlog2_eq, nlog2_eq]
  split_ifs with hc
  · have hc' : (b : ℚ) * 2 ^ Nat.log2 a ≤ a * 2 ^ Nat.log2 b := by exact_mod_cast hc
    constructor
    · rw [key, div_le_div_iff (by positivity) hbq]
      linarith
    · have he : (Nat.log2 a : ℤ) - Nat.log2 b + 1 = ((Nat.log2 a + 1 : ℕ) : ℤ) - Nat.log2 b := by
        push_cast
        ring
      rw [he, key, div_lt_div_iff hbq (by positivity)]
      calc (a : ℚ) * 2 ^ Nat.log2 b ≤ a * b := mul_le_mul_of_nonneg_left h3 haq.le
        _ < 2 ^ (Nat.log2 a + 1) * b := mul_lt_mul_of_pos_right h2 hbq
  · have hc' : (a : ℚ) * 2 ^ Nat.log2 b < b * 2 ^ Nat.log2 a := by exact_mod_cast not_le.1 hc
    constructor
    · have he2 : (Nat.log2 a : ℤ) - Nat.log2 b - 1 = (Nat.log2 a : ℤ) - ((Nat.log2 b + 1 : ℕ) : ℤ) := by
        push_cast
        ring
      rw [he2, key, div_le_div_iff (by positivity) hbq]
      calc (2 : ℚ) ^ Nat.log2 a * b ≤ a * b := mul_le_mul_of_nonneg_right h1 hbq.le
        _ ≤ a * 2 ^ (Nat.log2 b + 1) := mul_le_mul_of_nonneg_left h4.le haq.le
    · have he : (Nat.log2 a : ℤ) - Nat.log2 b - 1 + 1 = (Nat.log2 a : ℤ) - Nat.log2 b := by ring
      rw [he, key, div_lt_div_iff hbq (by positivity)]
      linarith

theorem val_mk (m : ℕ) (e : ℤ) : val ⟨m, e⟩ = m * (2 : ℚ) ^ e := rfl

theorem val_nonneg (x : F64) : 0 ≤ val x := by
  unfold val
  positivity

theorem val_eq_zero_of_mant (x : F64) (h : x.mant = 0) : val x = 0 := by
  unfold val
  rw [h]
  simp

theorem mant_ne_zero_of_val_pos (x : F64) (h : 0 < val x) : x.mant ≠ 0 := by
  intro h0
  rw [val_eq_zero_of_mant x h0] at h
  exact lt_irrefl 0 h

theorem val_roundSig (a b : ℕ) (off : ℤ) :
    val (roundSig a b off) = (sigMant a b : ℚ) * 2 ^ (off + sigExp a b - 52) := by
  unfold roundSig
  split_ifs with h
  · rw [val_mk, h]
    push_cast
    rw [show off + sigExp a b - 51 = off + sigExp a b - 52 + 1 by ring,
      zpow_add₀ (two_ne_zero (α := ℚ)), zpow_one]
    ring
  · rw [val_mk]

theorem scaled_eq (a b : ℕ) (hb : b ≠ 0) (k : ℤ) :
    ((a * 2 ^ k.toNat : ℕ) : ℚ) / ((b * 2 ^ (-k).toNat : ℕ) : ℚ) = (a : ℚ) / b * 2 ^ k := by
  rcases le_or_lt 0 k with h | h
  · obtain ⟨n, rfl⟩ : ∃ n : ℕ, k = n := ⟨k.toNat, (Int.toNat_of_nonneg h).symm⟩
    have h1 : ((n : ℤ)).toNat = n := Int.toNat_natCast n
    have h2 : (-(n : ℤ)).toNat = 0 := by omega
    rw [h1, h2, zpow_natCast]
    push_cast
    ring
  · obtain ⟨n, rfl⟩ : ∃ n : ℕ, k = -n := ⟨(-k).toNat, by omega⟩
    have h1 : ((-(n : ℤ))).toNat = 0 := by omega
    have h2 : (-(-(n : ℤ))).toNat = n := by omega
    rw [h1, h2, zpow_neg, zpow_natCast]
    push_cast
    ring

/-- Half-ulp correctness of the rounding: `roundSig a b off` differs from the
exact `(a / b) * 2 ^ off` by at most a factor `2 ^ (-53)` of it. -/
theorem roundSig_close (a b : ℕ) (ha : a ≠ 0) (hb : b ≠ 0) (off : ℤ) :
    |val (roundSig a b off) - (a : ℚ) / b * 2 ^ off| ≤ (a : ℚ) / b * 2 ^ off * (1 / 2 ^ 53) := by
  obtain ⟨hle, _⟩ := sigExp_spec a b ha hb
  have hden : b * 2 ^ (-(52 - sigExp a b)).toNat ≠ 0 :=
    Nat.mul_ne_zero hb (Nat.pos_of_ne_zero (by positivity)).ne'
  have hclose := roundNE_close (a * 2 ^ (52 - sigExp a b).toNat)
    (b * 2 ^ (-(52 - sigExp a b)).toNat) hden
  rw [scaled_eq a b hb (52 - sigExp a b)] at hclose
  have key : (a : ℚ) / b * 2 ^ off =
      ((a : ℚ) / b * 2 ^ (52 - sigExp a b)) * 2 ^ (off + sigExp a b - 52) := by
    rw [mul_assoc, ← zpow_add₀ (two_ne_zero (α := ℚ))]
    congr 2
    ring
  have hppos : (0 : ℚ) < 2 ^ (off + sigExp a b - 52) := by positivity
  have main : |val (roundSig a b off) - (a : ℚ) / b * 2 ^ off| ≤
      (1 / 2) * 2 ^ (off + sigExp a b - 52) := by
    rw [val_roundSig, key, ← sub_mul, abs_mul, abs_of_pos hppos]
    exact mul_le_mul_of_nonneg_right hclose hppos.le
  refine main.trans ?_
  calc (1 / 2 : ℚ) * 2 ^ (off + sigExp a b - 52)
      = 2 ^ sigExp a b * 2 ^ (off - 53) := by
        rw [show (1 : ℚ) / 2 = (2 : ℚ) ^ (-1 : ℤ) by norm_num,
          ← zpow_add₀ (two_ne_zero (α := ℚ)), ← zpow_add₀ (two_ne_zero (α := ℚ))]
        congr 1
        ring
    _ ≤ (a : ℚ) / b * 2 ^ (off - 53) := mul_le_mul_of_nonneg_right hle (by positivity)
    _ = ((a : ℚ) / b * 2 ^ off) * (1 / 2 ^ 53) := by
        rw [show (1 : ℚ) / 2 ^ 53 = (2 : ℚ) ^ (-53 : ℤ) by norm_num, mul_assoc,
          ← zpow_add₀ (two_ne_zero (α := ℚ))]
        congr 2

/-- Lower bound extracted from `roundSig_close`. -/
theorem roundSig_ge (a b : ℕ) (ha : a ≠ 0) (hb : b ≠ 0) (off : ℤ) :
    (a : ℚ) / b * 2 ^ off * (1 - 1 / 2 ^ 53) ≤ val (roundSig a b off) := by
  have h := abs_le.1 (roundSig_close a b ha hb off)
  nlinarith [h.1]

/-- Upper bound extracted from `roundSig_close`. -/
theorem roundSig_le (a b : ℕ) (ha : a ≠ 0) (hb : b ≠ 0) (off : ℤ) :
    val (roundSig a b off) ≤ (a : ℚ) / b * 2 ^ off * (1 + 1 / 2 ^ 53) := by
  have h := abs_le.1 (roundSig_close a b ha hb off)
  nlinarith [h.2]

theorem roundSig_pos (a b : ℕ) (ha : a ≠ 0) (hb : b ≠ 0) (off : ℤ) :
    0 < val (roundSig a b off) := by
  refine lt_of_lt_of_le ?_ (roundSig_ge a b ha hb off)
  have haq : (0 : ℚ) < a := by exact_mod_cast Nat.pos_of_ne_zero ha
  have hbq : (0 : ℚ) < b := by exact_mod_cast Nat.pos_of_ne_zero hb
  have h1 : (0 : ℚ) < (a : ℚ) / b * 2 ^ off := by positivity
  nlinarith

/-- Relative-error form used everywhere below. -/
def uu : ℚ := 1 / 2 ^ 53

theorem val_divNat_ge (a b : ℕ) (ha : a ≠ 0) (hb : b ≠ 0) :
    (a : ℚ) / b * (1 - uu) ≤ val (divNat a b) := by
  unfold divNat
  rw [if_neg ha]
  have h := roundSig_ge a b ha hb 0
  rw [zpow_zero, mul_one] at h
  exact h

theorem val_divNat_le (a b : ℕ) (ha : a ≠ 0) (hb : b ≠ 0) :
    val (divNat a b) ≤ (a : ℚ) / b * (1 + uu) := by
  unfold divNat
  rw [if_neg ha]
  have h := roundSig_le a b ha hb 0
  rw [zpow_zero, mul_one] at h
  exact h

theorem val_divNat_pos (a b : ℕ) (ha : a ≠ 0) (hb : b ≠ 0) : 0 < val (divNat a b) := by
  unfold divNat
  rw [if_neg ha]
  exact roundSig_pos a b ha hb 0

theorem val_floatOfNat_ge (n : ℕ) (hn : n ≠ 0) : (n : ℚ) * (1 - uu) ≤ val (floatOfNat n) := by
  unfold floatOfNat
  rw [if_neg hn]
  have h := roundSig_ge n 1 hn one_ne_zero 0
  rw [zpow_zero, mul_one, Nat.cast_one, div_one] at h
  exact h

theorem val_floatOfNat_le (n : ℕ) (hn : n ≠ 0) : val (floatOfNat n) ≤ (n : ℚ) * (1 + uu) := by
  unfold floatOfNat
  rw [if_neg hn]
  have h := roundSig_le n 1 hn one_ne_zero 0
  rw [zpow_zero, mul_one, Nat.cast_one, div_one] at h
  exact h

theorem val_floatOfNat_pos (n : ℕ) (hn : n ≠ 0) : 0 < val (floatOfNat n) := by
  unfold floatOfNat
  rw [if_neg hn]
  exact roundSig_pos n 1 hn one_ne_zero 0

theorem fmul_q_eq (x y : F64) :
    ((x.mant * y.mant : ℕ) : ℚ) / (1 : ℕ) * 2 ^ (x.exp + y.exp) = val x * val y := by
  push_cast
  rw [div_one, zpow_add₀ (two_ne_zero (α := ℚ))]
  unfold val
  ring

theorem val_fmul_ge (x y : F64) (hx : x.mant ≠ 0) (hy : y.mant ≠ 0) :
    val x * val y * (1 - uu) ≤ val (fmul x y) := by
  unfold fmul
  rw [if_neg (by tauto)]
  have h := roundSig_ge (x.mant * y.mant) 1 (Nat.mul_ne_zero hx hy) one_ne_zero (x.exp + y.exp)
  rw [show ((x.mant * y.mant : ℕ) : ℚ) / ((1 : ℕ) : ℚ) = ((x.mant * y.mant : ℕ) : ℚ) / (1 : ℕ) by
    norm_num, fmul_q_eq] at h
  exact h

theorem val_fmul_le (x y : F64) (hx : x.mant ≠ 0) (hy : y.mant ≠ 0) :
    val (fmul x y) ≤ val x * val y * (1 + uu) := by
  unfold fmul
  rw [if_neg (by tauto)]
  have h := roundSig_le (x.mant * y.mant) 1 (Nat.mul_ne_zero hx hy) one_ne_zero (x.exp + y.exp)
  rw [show ((x.mant * y.mant : ℕ) : ℚ) / ((1 : ℕ) : ℚ) = ((x.mant * y.mant : ℕ) : ℚ) / (1 : ℕ) by
    norm_num, fmul_q_eq] at h
  exact h

theorem fdiv_q_eq (x y : F64) (hy : y.mant ≠ 0) :
    (x.mant : ℚ) / (y.mant : ℚ) * 2 ^ (x.exp - y.exp) = val x / val y := by
  have hyq : ((y.mant : ℚ)) ≠ 0 := by exact_mod_cast hy
  have hp : ((2 : ℚ) ^ y.exp) ≠ 0 := by positivity
  unfold val
  rw [zpow_sub₀ (two_ne_zero (α := ℚ))]
  field_simp

theorem val_fdiv_ge (x y : F64) (hx : x.mant ≠ 0) (hy : y.mant ≠ 0) :
    val x / val y * (1 - uu) ≤ val (fdiv x y) := by
  unfold fdiv
  rw [if_neg hx]
  have h := roundSig_ge x.mant y.mant hx hy (x.exp - y.exp)
  rw [fdiv_q_eq x y hy] at h
  exact h

theorem val_fdiv_le (x y : F64) (hx : x.mant ≠ 0) (hy : y.mant ≠ 0) :
    val (fdiv x y) ≤ val x / val y * (1 + uu) := by
  unfold fdiv
  rw [if_neg hx]
  have h := roundSig_le x.mant y.mant hx hy (x.exp - y.exp)
  rw [fdiv_q_eq x y hy] at h
  exact h

theorem fltB_iff (x y : F64) : fltB x y = true ↔ val x < val y := by
  unfold fltB val
  rw [decide_eq_true_eq]
  rcases le_total x.exp y.exp with h | h
  · have h1 : (x.exp - y.exp).toNat = 0 := by omega
    have h2 : ((y.exp - x.exp).toNat : ℤ) = y.exp - x.exp := by omega
    rw [h1, pow_zero, mul_one]
    have he : (2 : ℚ) ^ y.exp = 2 ^ (y.exp - x.exp) * 2 ^ x.exp := by
      rw [← zpow_add₀ (two_ne_zero (α := ℚ))]
      congr 1
      ring
    rw [he, ← mul_assoc]
    constructor
    · intro hlt
      have hx2 : (0 : ℚ) < 2 ^ x.exp := by positivity
      apply mul_lt_mul_of_pos_right _ hx2
      calc (x.mant : ℚ) < (y.mant * 2 ^ (y.exp - x.exp).toNat : ℕ) := by exact_mod_cast hlt
        _ = y.mant * 2 ^ (y.exp - x.exp) := by
            push_cast
            rw [← zpow_natCast (2 : ℚ), h2]
    · intro hlt
      have hx2 : (0 : ℚ) < 2 ^ x.exp := by positivity
      have := lt_of_mul_lt_mul_right hlt hx2.le
      have hcast : (x.mant : ℚ) < (y.mant : ℚ) * 2 ^ (y.exp - x.exp) := this
      rw [show (2 : ℚ) ^ (y.exp - x.exp) = ((2 ^ (y.exp - x.exp).toNat : ℕ) : ℚ) by
        push_cast
        rw [← zpow_natCast (2 : ℚ), h2]] at hcast
      exact_mod_cast hcast
  · have h1 : (y.exp - x.exp).toNat = 0 := by omega
    have h2 : ((x.exp - y.exp).toNat : ℤ) = x.exp - y.exp := by omega
    rw [h1, pow_zero, mul_one]
    have he : (2 : ℚ) ^ x.exp = 2 ^ (x.exp - y.exp) * 2 ^ y.exp := by
      rw [← zpow_add₀ (two_ne_zero (α := ℚ))]
      congr 1
      ring
    rw [he, ← mul_assoc]
    constructor
    · intro hlt
      have hy2 : (0 : ℚ) < 2 ^ y.exp := by positivity
      apply mul_lt_mul_of_pos_right _ hy2
      calc (x.mant : ℚ) * 2 ^ (x.exp - y.exp)
          = ((x.mant * 2 ^ (x.exp - y.exp).toNat : ℕ) : ℚ) := by
            push_cast
            rw [← zpow_natCast (2 : ℚ), h2]
        _ < (y.mant : ℚ) := by exact_mod_cast hlt
    · intro hlt
      have hy2 : (0 : ℚ) < 2 ^ y.exp := by positivity
      have := lt_of_mul_lt_mul_right hlt hy2.le
      have hcast : (x.mant : ℚ) * 2 ^ (x.exp - y.exp) < (y.mant : ℚ) := this
      rw [show (2 : ℚ) ^ (x.exp - y.exp) = ((2 ^ (x.exp - y.exp).toNat : ℕ) : ℚ) by
        push_cast
        rw [← zpow_natCast (2 : ℚ), h2]] at hcast
      exact_mod_cast hcast

theorem ffloor_eq (x : F64) : ffloor x = ⌊val x⌋₊ := by
  unfold ffloor val
  split_ifs with h
  · rw [show (2 : ℚ) ^ x.exp = ((2 ^ x.exp.toNat : ℕ) : ℚ) by
      push_cast
      rw [← zpow_natCast (2 : ℚ)]
      congr 1
      omega]
    rw [show (x.mant : ℚ) * ((2 ^ x.exp.toNat : ℕ) : ℚ) = ((x.mant * 2 ^ x.exp.toNat : ℕ) : ℚ) by
      push_cast
      ring]
    rw [Nat.floor_natCast]
  · have hx : (2 : ℚ) ^ x.exp = 1 / ((2 ^ (-x.exp).toNat : ℕ) : ℚ) := by
      push_cast
      rw [← zpow_natCast (2 : ℚ), show (((-x.exp).toNat : ℤ)) = -x.exp by omega]
      rw [zpow_neg, one_div, inv_inv]
    rw [hx]
    rw [show (x.mant : ℚ) * (1 / ((2 ^ (-x.exp).toNat : ℕ) : ℚ)) =
      (x.mant : ℚ) / ((2 ^ (-x.exp).toNat : ℕ) : ℚ) by ring]
    rw [Nat.floor_div_nat, Nat.floor_natCast]

/-! Branch characterizations of the resolver, and the batch loop invariant. -/

theorem resolveDims_both (ow oh W H : ℕ) (hW : W ≠ 0) (hH : H ≠ 0) (hoh : oh ≠ 0) :
    resolveDims ow oh (some W) (some H) true =
      if fltB (divNat ow oh) (divNat W H) then
        some (ffloor (fmul (floatOfNat H) (divNat ow oh)), H)
      else some (W, ffloor (fdiv (floatOfNat W) (divNat ow oh))) := by
  have h1 : intTruthy (some W) = true := by simp [intTruthy, hW]
  have h2 : intTruthy (some H) = true := by simp [intTruthy, hH]
  simp only [resolveDims, h1, h2, Bool.and_self, if_true, Option.getD_some]
  rw [if_neg hoh]

theorem resolveDims_both_noaspect (ow oh W H : ℕ) (hW : W ≠ 0) (hH : H ≠ 0) :
    resolveDims ow oh (some W) (some H) false = some (W, H) := by
  have h1 : intTruthy (some W) = true := by simp [intTruthy, hW]
  have h2 : intTruthy (some H) = true := by simp [intTruthy, hH]
  simp only [resolveDims, h1, h2, Bool.and_self, if_true, Option.getD_some]
  rfl

theorem resolveDims_width_only (ow oh W : ℕ) (hW : W ≠ 0) (how : ow ≠ 0) (m : Bool) :
    resolveDims ow oh (some W) none m =
      some (W, ffloor (fmul (floatOfNat W) (divNat oh ow))) := by
  have h1 : intTruthy (some W) = true := by simp [intTruthy, hW]
  have h2 : intTruthy none = false := rfl
  simp only [resolveDims, h1, h2, Bool.and_false, Bool.false_eq_true, if_false,
    Option.getD_some, if_true]
  rw [if_neg how]

theorem resolveDims_height_only (ow oh H : ℕ) (hH : H ≠ 0) (hoh : oh ≠ 0) (m : Bool) :
    resolveDims ow oh none (some H) m =
      some (ffloor (fmul (floatOfNat H) (divNat ow oh)), H) := by
  have h1 : intTruthy (some H) = true := by simp [intTruthy, hH]
  have h2 : intTruthy none = false := rfl
  simp only [resolveDims, h1, h2, Bool.false_and, Bool.false_eq_true, if_false,
    Option.getD_some]
  simp [hoh]

theorem batchLoop_spec (cfg : Config) (files : List InputFile) : ∀ s fl : ℕ,
    batchLoop cfg files (s, fl) =
      (s + files.countP (resizeImageOk cfg),
       fl + files.countP (fun f => !resizeImageOk cfg f)) := by
  induction files with
  | nil => intro s fl; simp [batchLoop]
  | cons f fs ih =>
    intro s fl
    rw [batchLoop]
    by_cases h : resizeImageOk cfg f = true
    · rw [if_pos h, ih, List.countP_cons, List.countP_cons, h]
      simp
      omega
    · rw [if_neg h, ih, List.countP_cons, List.countP_cons]
      rw [Bool.not_eq_true] at h
      rw [h]
      simp
      omega

/-! Claim theorems. -/

/-- C1, counterexample: with a 3×13 source and targetWidth 57, the code's
double-precision evaluation `int(57 * (13 / 3))` yields 246, while the exact
rational floor `⌊57 * 13 / 3⌋ = 247`; the resolver is NOT the exact integer
floor of `W * h / w`. -/
theorem width_only_not_exact_floor :
    resolveDims 3 13 (some 57) none true = some (57, 246) ∧ 57 * 13 / 3 = 247 ∧
      (246 : ℕ) ≠ 247 := by
  refine ⟨by decide, by norm_num, by norm_num⟩

/-- C1 (amended): for a width-only request on a `w × h` source with positive
sizes, the resolver returns `newWidth = W` exactly, and `newHeight` is the
truncation of the double-precision product `W * fl(h / w)`, which lies within
one of the exact floor `⌊W * h / w⌋` whenever `W * h / w ≤ 2 ^ 51` (but can
differ from it by one, as the counterexample shows). -/
theorem width_only_dims (ow oh W : ℕ) (how : 1 ≤ ow) (hoh : 1 ≤ oh) (hW : 1 ≤ W)
    (hbound : W * oh ≤ 2 ^ 51 * ow) (m : Bool) :
    ∃ nh, resolveDims ow oh (some W) none m = some (W, nh) ∧
      W * oh / ow ≤ nh + 1 ∧ nh ≤ W * oh / ow + 1 := by
  have howz : ow ≠ 0 := by omega
  have hohz : oh ≠ 0 := by omega
  have hWz : W ≠ 0 := by omega
  rw [resolveDims_width_only ow oh W hWz howz m]
  refine ⟨_, rfl, ?_, ?_⟩
  all_goals
    have howq : (0 : ℚ) < ow := by exact_mod_cast Nat.pos_of_ne_zero howz
    have hohq : (0 : ℚ) < oh := by exact_mod_cast Nat.pos_of_ne_zero hohz
    have hWq : (0 : ℚ) < W := by exact_mod_cast Nat.pos_of_ne_zero hWz
    have hxfloor : ⌊((W * oh : ℕ) : ℚ) / ((ow : ℕ) : ℚ)⌋₊ = W * oh / ow := by
      rw [Nat.floor_div_nat, Nat.floor_natCast]
    have hxval : ((W * oh : ℕ) : ℚ) / ((ow : ℕ) : ℚ) = (W : ℚ) * ((oh : ℚ) / ow) := by
      push_cast
      ring
    have hx51 : (W : ℚ) * ((oh : ℚ) / ow) ≤ 2 ^ 51 := by
      rw [← hxval, div_le_iff howq]
      exact_mod_cast hbound
    have hxpos : (0 : ℚ) < (W : ℚ) * ((oh : ℚ) / ow) := by positivity
    have hfWm : (floatOfNat W).mant ≠ 0 :=
      mant_ne_zero_of_val_pos _ (val_floatOfNat_pos W hWz)
    have hAm : (divNat oh ow).mant ≠ 0 :=
      mant_ne_zero_of_val_pos _ (val_divNat_pos oh ow hohz howz)
    have hApos : 0 < val (divNat oh ow) := val_divNat_pos oh ow hohz howz
    have hfWpos : 0 < val (floatOfNat W) := val_floatOfNat_pos W hWz
    have hup : val (fmul (floatOfNat W) (divNat oh ow)) ≤
        (W : ℚ) * ((oh : ℚ) / ow) * (1 + uu) ^ 3 := by
      calc val (fmul (floatOfNat W) (divNat oh ow))
          ≤ val (floatOfNat W) * val (divNat oh ow) * (1 + uu) :=
            val_fmul_le _ _ hfWm hAm
        _ ≤ ((W : ℚ) * (1 + uu)) * ((oh : ℚ) / ow * (1 + uu)) * (1 + uu) := by
            have := mul_le_mul (val_floatOfNat_le W hWz) (val_divNat_le oh ow hohz howz)
              hApos.le (by unfold uu; positivity)
            have huupos : (0 : ℚ) ≤ 1 + uu := by norm_num [uu]
            exact mul_le_mul_of_nonneg_right this huupos
        _ = (W : ℚ) * ((oh : ℚ) / ow) * (1 + uu) ^ 3 := by ring
    have hlow : (W : ℚ) * ((oh : ℚ) / ow) * (1 - uu) ^ 3 ≤
        val (fmul (floatOfNat W) (divNat oh ow)) := by
      calc (W : ℚ) * ((oh : ℚ) / ow) * (1 - uu) ^ 3
          = ((W : ℚ) * (1 - uu)) * ((oh : ℚ) / ow * (1 - uu)) * (1 - uu) := by ring
        _ ≤ val (floatOfNat W) * val (divNat oh ow) * (1 - uu) := by
            have huupos : (0 : ℚ) ≤ 1 - uu := by norm_num [uu]
            exact mul_le_mul_of_nonneg_right
              (mul_le_mul (val_floatOfNat_ge W hWz) (val_divNat_ge oh ow hohz howz)
                (by positivity) hfWpos.le) huupos
        _ ≤ val (fmul (floatOfNat W) (divNat oh ow)) := val_fmul_ge _ _ hfWm hAm
  · -- exact floor ≤ nh + 1
    have hkey : (W : ℚ) * ((oh : ℚ) / ow) ≤
        val (fmul (floatOfNat W) (divNat oh ow)) + 1 := by
      have hc : (W : ℚ) * ((oh : ℚ) / ow) * (3 * uu - 3 * uu ^ 2 + uu ^ 3) ≤
          2 ^ 51 * (3 * uu - 3 * uu ^ 2 + uu ^ 3) :=
        mul_le_mul_of_nonneg_right hx51 (by norm_num [uu])
      have hn : (2 : ℚ) ^ 51 * (3 * uu - 3 * uu ^ 2 + uu ^ 3) < 1 := by norm_num [uu]
      nlinarith [hlow]
    rw [ffloor_eq]
    have h1 : ((W * oh : ℕ) : ℚ) / ((ow : ℕ) : ℚ) ≤
        val (fmul (floatOfNat W) (divNat oh ow)) + 1 := by
      rw [hxval]
      exact hkey
    have h2 := Nat.floor_le_floor h1
    rw [Nat.floor_add_one (val_nonneg _), hxfloor] at h2
    omega
  · -- nh ≤ exact floor + 1
    have hkey : val (fmul (floatOfNat W) (divNat oh ow)) <
        (W : ℚ) * ((oh : ℚ) / ow) + 1 := by
      have hc : (W : ℚ) * ((oh : ℚ) / ow) * (3 * uu + 3 * uu ^ 2 + uu ^ 3) ≤
          2 ^ 51 * (3 * uu + 3 * uu ^ 2 + uu ^ 3) :=
        mul_le_mul_of_nonneg_right hx51 (by norm_num [uu])
      have hn : (2 : ℚ) ^ 51 * (3 * uu + 3 * uu ^ 2 + uu ^ 3) < 1 := by norm_num [uu]
      nlinarith [hup]
    rw [ffloor_eq]
    have h1 : val (fmul (floatOfNat W) (divNat oh ow)) ≤
        ((W * oh : ℕ) : ℚ) / ((ow : ℕ) : ℚ) + 1 := by
      rw [hxval]
      exact hkey.le
    have h2 := Nat.floor_le_floor h1
    rw [Nat.floor_add_one (by positivity), hxfloor] at h2
    omega

/-- C1, witness: the 1600×900 source at width 800 from the spec's own example
satisfies the amended bounds. -/
theorem width_only_dims_witness :
    ∃ nh, resolveDims 1600 900 (some 800) none true = some (800, nh) ∧
      800 * 900 / 1600 ≤ nh + 1 ∧ nh ≤ 800 * 900 / 1600 + 1 :=
  width_only_dims 1600 900 800 (by norm_num) (by norm_num) (by norm_num) (by norm_num) true

/-- C2, counterexample: for a 1×5 source with targetWidth 10004532007976242 and
targetHeight 50022660039881205, the double-precision branch comparison selects
the width-binding branch and `int(W / aspect)` evaluates to 50022660039881208,
which EXCEEDS the requested height H — the box-fit guarantee fails as stated
(universally, for all positive sizes). -/
theorem fit_box_counterexample :
    resolveDims 1 5 (some 10004532007976242) (some 50022660039881205) true =
      some (10004532007976242, 50022660039881208) ∧
    ¬(50022660039881208 ≤ 50022660039881205) :=
  ⟨by decide, by decide⟩

/-- C2 (amended): the box-fit guarantee — `newWidth ≤ W`, `newHeight ≤ H`, and
one of them is hit exactly — holds whenever the requested box dimensions are at
most `2 ^ 51` (double-precision rounding can break it only beyond that, as the
counterexample shows). -/
theorem fit_box_bounded (ow oh W H : ℕ) (how : 1 ≤ ow) (hoh : 1 ≤ oh)
    (hW : 1 ≤ W) (hH : 1 ≤ H) (hW51 : W ≤ 2 ^ 51) (hH51 : H ≤ 2 ^ 51) :
    ∃ nw nh, resolveDims ow oh (some W) (some H) true = some (nw, nh) ∧
      nw ≤ W ∧ nh ≤ H ∧ (nw = W ∨ nh = H) := by
  have howz : ow ≠ 0 := by omega
  have hohz : oh ≠ 0 := by omega
  have hWz : W ≠ 0 := by omega
  have hHz : H ≠ 0 := by omega
  rw [resolveDims_both ow oh W H hWz hHz hohz]
  have hWq : (0 : ℚ) < W := by exact_mod_cast Nat.pos_of_ne_zero hWz
  have hHq : (0 : ℚ) < H := by exact_mod_cast Nat.pos_of_ne_zero hHz
  have hW51q : (W : ℚ) ≤ 2 ^ 51 := by exact_mod_cast hW51
  have hH51q : (H : ℚ) ≤ 2 ^ 51 := by exact_mod_cast hH51
  have hApos : 0 < val (divNat ow oh) := val_divNat_pos ow oh howz hohz
  have hAm : (divNat ow oh).mant ≠ 0 := mant_ne_zero_of_val_pos _ hApos
  have hRup : val (divNat W H) ≤ (W : ℚ) / H * (1 + uu) := val_divNat_le W H hWz hHz
  have hRlow : (W : ℚ) / H * (1 - uu) ≤ val (divNat W H) := val_divNat_ge W H hWz hHz
  by_cases hb : fltB (divNat ow oh) (divNat W H) = true
  · rw [if_pos hb]
    refine ⟨_, H, rfl, ?_, le_rfl, Or.inr rfl⟩
    have hAR : val (divNat ow oh) < val (divNat W H) := (fltB_iff _ _).1 hb
    have hfH : val (floatOfNat H) ≤ (H : ℚ) * (1 + uu) := val_floatOfNat_le H hHz
    have hfHpos : 0 < val (floatOfNat H) := val_floatOfNat_pos H hHz
    have hfHm : (floatOfNat H).mant ≠ 0 := mant_ne_zero_of_val_pos _ hfHpos
    have h1 : val (fmul (floatOfNat H) (divNat ow oh)) ≤
        val (floatOfNat H) * val (divNat ow oh) * (1 + uu) := val_fmul_le _ _ hfHm hAm
    have h2 : val (floatOfNat H) * val (divNat ow oh) ≤
        ((H : ℚ) * (1 + uu)) * ((W : ℚ) / H * (1 + uu)) :=
      mul_le_mul hfH (le_trans hAR.le hRup) hApos.le (by unfold uu; positivity)
    have h3 : ((H : ℚ) * (1 + uu)) * ((W : ℚ) / H * (1 + uu)) = (W : ℚ) * (1 + uu) ^ 2 := by
      field_simp
      ring
    have h4 : val (fmul (floatOfNat H) (divNat ow oh)) ≤ (W : ℚ) * (1 + uu) ^ 3 := by
      calc val (fmul (floatOfNat H) (divNat ow oh))
          ≤ val (floatOfNat H) * val (divNat ow oh) * (1 + uu) := h1
        _ ≤ ((W : ℚ) * (1 + uu) ^ 2) * (1 + uu) := by
            rw [← h3]
            exact mul_le_mul_of_nonneg_right h2 (by unfold uu; positivity)
        _ = (W : ℚ) * (1 + uu) ^ 3 := by ring
    have h5 : (W : ℚ) * (1 + uu) ^ 3 < W + 1 := by
      have hc : (W : ℚ) * (3 * uu + 3 * uu ^ 2 + uu ^ 3) ≤
          2 ^ 51 * (3 * uu + 3 * uu ^ 2 + uu ^ 3) :=
        mul_le_mul_of_nonneg_right hW51q (by norm_num [uu])
      have hn : (2 : ℚ) ^ 51 * (3 * uu + 3 * uu ^ 2 + uu ^ 3) < 1 := by norm_num [uu]
      nlinarith
    have h6 : val (fmul (floatOfNat H) (divNat ow oh)) < ((W + 1 : ℕ) : ℚ) := by
      push_cast
      linarith
    rw [ffloor_eq]
    have := (Nat.floor_lt (val_nonneg _)).2 h6
    omega
  · rw [if_neg hb]
    refine ⟨W, _, rfl, le_rfl, ?_, Or.inl rfl⟩
    have hRA : val (divNat W H) ≤ val (divNat ow oh) := by
      rw [fltB_iff] at hb
      exact le_of_not_lt hb
    have hAlow : (W : ℚ) / H * (1 - uu) ≤ val (divNat ow oh) := le_trans hRlow hRA
    have hfW : val (floatOfNat W) ≤ (W : ℚ) * (1 + uu) := val_floatOfNat_le W hWz
    have hfWpos : 0 < val (floatOfNat W) := val_floatOfNat_pos W hWz
    have hfWm : (floatOfNat W).mant ≠ 0 := mant_ne_zero_of_val_pos _ hfWpos
    have hdpos : (0 : ℚ) < (W : ℚ) / H * (1 - uu) := by unfold uu; positivity
    have h1 : val (fdiv (floatOfNat W) (divNat ow oh)) ≤
        val (floatOfNat W) / val (divNat ow oh) * (1 + uu) := val_fdiv_le _ _ hfWm hAm
    have h2 : val (floatOfNat W) / val (divNat ow oh) ≤
        ((W : ℚ) * (1 + uu)) / ((W : ℚ) / H * (1 - uu)) := by
      exact div_le_div (by unfold uu; positivity) hfW hdpos hAlow
    have h3 : ((W : ℚ) * (1 + uu)) / ((W : ℚ) / H * (1 - uu)) =
        (H : ℚ) * (1 + uu) / (1 - uu) := by
      rw [div_eq_div_iff (ne_of_gt hdpos) (by norm_num [uu])]
      field_simp
      ring
    have h5 : (H : ℚ) * (1 + uu) / (1 - uu) * (1 + uu) < H + 1 := by
      rw [div_mul_eq_mul_div, div_lt_iff (by norm_num [uu])]
      have hc : (H : ℚ) * (3 * uu + uu ^ 2) ≤ 2 ^ 51 * (3 * uu + uu ^ 2) :=
        mul_le_mul_of_nonneg_right hH51q (by norm_num [uu])
      have hn : (2 : ℚ) ^ 51 * (3 * uu + uu ^ 2) + uu < 1 := by norm_num [uu]
      nlinarith
    have h6 : val (fdiv (floatOfNat W) (divNat ow oh)) < ((H + 1 : ℕ) : ℚ) := by
      push_cast
      have hc1 : val (floatOfNat W) / val (divNat ow oh) * (1 + uu) ≤
          (H : ℚ) * (1 + uu) / (1 - uu) * (1 + uu) :=
        mul_le_mul_of_nonneg_right (le_trans h2 (le_of_eq h3)) (by norm_num [uu])
      linarith
    rw [ffloor_eq]
    have := (Nat.floor_lt (val_nonneg _)).2 h6
    omega

/-- C2, witness: the spec's example box 800×1080 on a 1000×500 source is
within the amended bound and fits the box. -/
theorem fit_box_bounded_witness :
    ∃ nw nh, resolveDims 1000 500 (some 800) (some 1080) true = some (nw, nh) ∧
      nw ≤ 800 ∧ nh ≤ 1080 ∧ (nw = 800 ∨ nh = 1080) :=
  fit_box_bounded 1000 500 800 1080 (by norm_num) (by norm_num) (by norm_num)
    (by norm_num) (by norm_num) (by norm_num)

/-- C5, counterexample: a 1000×1 source with targetWidth 1 resolves to the
degenerate dimensions (1, 0) — the computed height truncates to 0 and the
resolver does NOT clamp it to 1, refuting the claim that a 0-height resize
request is never produced. -/
theorem resolve_zero_height :
    resolveDims 1000 1 (some 1) none true = some (1, 0) ∧ ¬(1 ≤ (1, 0).2) :=
  ⟨by decide, by decide⟩

/-- C5 (amended): no clamping occurs.  A supplied target dimension is always
passed through exactly as given (and the request succeeds), but the derived
dimension is the bare float truncation, which can be 0 (see the
counterexample); with `maintainAspect = false` both supplied dimensions are
returned verbatim. -/
theorem resolve_no_clamp_passthrough (ow oh W H : ℕ) (how : 1 ≤ ow) (hoh : 1 ≤ oh)
    (hW : 1 ≤ W) (hH : 1 ≤ H) (m : Bool) :
    (∃ nh, resolveDims ow oh (some W) none m = some (W, nh)) ∧
    (∃ nw, resolveDims ow oh none (some H) m = some (nw, H)) ∧
    resolveDims ow oh (some W) (some H) false = some (W, H) :=
  ⟨⟨_, resolveDims_width_only ow oh W (by omega) (by omega) m⟩,
   ⟨_, resolveDims_height_only ow oh H (by omega) (by omega) m⟩,
   resolveDims_both_noaspect ow oh W H (by omega) (by omega)⟩

/-- C5, witness: pass-through at the 1600×900 source with box 800×450. -/
theorem resolve_no_clamp_passthrough_witness :
    (∃ nh, resolveDims 1600 900 (some 800) none true = some (800, nh)) ∧
    (∃ nw, resolveDims 1600 900 none (some 450) true = some (nw, 450)) ∧
    resolveDims 1600 900 (some 800) (some 450) false = some (800, 450) :=
  resolve_no_clamp_passthrough 1600 900 800 450 (by norm_num) (by norm_num)
    (by norm_num) (by norm_num) true

/-- C10: a target dimension equal to 0 is falsy in Python, so the resolver
treats it exactly as an unsupplied dimension: width 0 behaves like width
`None`, height 0 behaves like height `None`, and both 0 fails exactly like
neither given. -/
theorem zero_dimension_unsupplied (ow oh : ℕ) (w h : Option ℕ) (m : Bool) :
    resolveDims ow oh (some 0) h m = resolveDims ow oh none h m ∧
    resolveDims ow oh w (some 0) m = resolveDims ow oh w none m ∧
    resolveDims ow oh (some 0) (some 0) m = none := by
  refine ⟨rfl, ?_, rfl⟩
  rcases w with _ | n
  · rfl
  · rcases n with _ | k
    · rfl
    · rfl

/-- C4, counterexample: calling `batch_resize_images` with neither width nor
height does NOT fail before processing: both files of this batch are attempted,
each `resize_image` call returns the recoverable per-image `False` (after
printing the warning), and the run completes with `{total 2, success 0,
failed 2}` — the missing-dimension condition is handled per image, not
validated fatally at configuration time. -/
theorem batch_missing_dims_continues :
    batch_resize_images ⟨none, none, true, 95, none, "", ""⟩
      [⟨"a", ".png", some ⟨10, 10, Mode.RGB, some "PNG"⟩⟩,
       ⟨"b", ".png", some ⟨20, 20, Mode.RGB, some "PNG"⟩⟩] = ⟨2, 0, 2⟩ ∧
    resizeImageOk ⟨none, none, true, 95, none, "", ""⟩
      ⟨"a", ".png", some ⟨10, 10, Mode.RGB, some "PNG"⟩⟩ = false :=
  ⟨by decide, by decide⟩

/-- C4 (amended): when neither dimension is supplied, `batch_resize_images`
does not fail fast; every file is processed, every `resize_image` call fails
individually on the warning path, and the batch returns
`{total n, success 0, failed n}`.  (Only the CLI `main` validates dimensions
before the batch starts.) -/
theorem batch_missing_dims_all_fail (cfg : Config) (files : List InputFile)
    (hw : intTruthy cfg.width = false) (hh : intTruthy cfg.height = false) :
    batch_resize_images cfg files = ⟨files.length, 0, files.length⟩ := by
  have hok : ∀ f : InputFile, resizeImageOk cfg f = false := by
    intro f
    unfold resizeImageOk
    rcases f.decoded with _ | img
    · rfl
    · simp only [resolveDims, hw, hh, Bool.false_and, Bool.false_eq_true, if_false,
        Option.isSome_none]
  unfold batch_resize_images
  rcases files with _ | ⟨f, fs⟩
  · rfl
  · rw [if_neg (by simp)]
    rw [batchLoop_spec]
    have hc1 : (f :: fs).countP (resizeImageOk cfg) = 0 := by
      rw [List.countP_eq_zero]
      intro x _
      simp [hok x]
    have hc2 : (f :: fs).countP (fun g => !resizeImageOk cfg g) = (f :: fs).length := by
      rw [List.countP_eq_length]
      intro x _
      rw [hok x]
      rfl
    rw [hc1, hc2]
    simp

/-- C4, witness: the amended statement at a concrete no-dimension batch. -/
theorem batch_missing_dims_all_fail_witness :
    batch_resize_images ⟨none, none, true, 95, some "PNG", "th_", ""⟩
      [⟨"x", ".bmp", some ⟨7, 3, Mode.RGB, none⟩⟩,
       ⟨"y", ".gif", none⟩,
       ⟨"z", ".jpg", some ⟨4, 4, Mode.RGBA, some "JPEG"⟩⟩] = ⟨3, 0, 3⟩ :=
  batch_missing_dims_all_fail _ _ (by decide) (by decide)

/-- C7: the batch always completes with `total` the number of enumerated
files, `success` the number of files whose resize succeeded, and `failed` the
number whose resize failed (so a per-image failure is counted and does not
stop later files from being processed); a zero-image run returns
`{total 0, success 0, failed 0}`. -/
theorem batch_completes_counts (cfg : Config) (files : List InputFile) :
    batch_resize_images cfg files =
      ⟨files.length, files.countP (resizeImageOk cfg),
       files.countP (fun f => !resizeImageOk cfg f)⟩ ∧
    batch_resize_images cfg [] = ⟨0, 0, 0⟩ := by
  constructor
  · unfold batch_resize_images
    rcases files with _ | ⟨f, fs⟩
    · rfl
    · rw [if_neg (by simp), batchLoop_spec]
      simp
  · rfl

/-- C9: in every batch summary, `total = success + failed` — each processed
file contributes to exactly one of the two outcome counters. -/
theorem batch_total_split (cfg : Config) (files : List InputFile) :
    (batch_resize_images cfg files).total =
      (batch_resize_images cfg files).success + (batch_resize_images cfg files).failed := by
  have split : ∀ l : List InputFile,
      l.countP (resizeImageOk cfg) + l.countP (fun f => !resizeImageOk cfg f) = l.length := by
    intro l
    induction l with
    | nil => rfl
    | cons g gs ih =>
      rcases Bool.eq_false_or_eq_true (resizeImageOk cfg g) with h | h <;>
        simp [List.countP_cons, h] <;> omega
  unfold batch_resize_images
  rcases files with _ | ⟨f, fs⟩
  · rfl
  · rw [if_neg (by simp), batchLoop_spec]
    have := split (f :: fs)
    simp only [Nat.zero_add]
    omega

theorem blendOverWhite_transparent (p : Px) (h : p.a = 0) :
    blendOverWhite p = ⟨255, 255, 255, 255⟩ := by
  unfold blendOverWhite blendChannel mulDiv255
  rw [h]
  simp

theorem convertForJPEG_RGBA (px pal : List Px) :
    convertForJPEG ⟨Mode.RGBA, px, pal⟩ = ⟨Mode.RGB, px.map blendOverWhite, []⟩ := by
  simp [convertForJPEG]

theorem convertForJPEG_LA (px pal : List Px) :
    convertForJPEG ⟨Mode.LA, px, pal⟩ = ⟨Mode.RGB, px.map laToRGB, []⟩ := by
  simp [convertForJPEG]

theorem convertForJPEG_P (px pal : List Px) :
    convertForJPEG ⟨Mode.P, px, pal⟩ =
      ⟨Mode.RGB, (px.map (pLookup pal)).map blendOverWhite, []⟩ := by
  simp [convertForJPEG, pToRGBA]

/-- C3, counterexample: a fully transparent LA pixel with luminance 7 is
pasted onto the white canvas WITHOUT its alpha as a mask (the mask is used
only for RGBA), so it renders as gray (7,7,7), not white — the claim that the
alpha channel is used as the blend mask whenever an alpha channel exists is
false for LA images. -/
theorem jpeg_la_transparent_not_white :
    convertForJPEG ⟨Mode.LA, [⟨7, 0, 0, 0⟩], []⟩ = ⟨Mode.RGB, [⟨7, 7, 7, 255⟩], []⟩ ∧
    (⟨7, 7, 7, 255⟩ : Px) ≠ ⟨255, 255, 255, 255⟩ :=
  ⟨by decide, by decide⟩

/-- C3 (amended): for JPEG output the transcoder always produces an opaque RGB
image from RGBA/LA/P inputs; the alpha-mask composite over white applies to
RGBA inputs (and to P inputs after palette expansion to RGBA), so a fully
transparent RGBA source renders all-white; LA inputs however are pasted
without a mask, so their alpha is discarded and each pixel keeps its
luminance. -/
theorem jpeg_convert_modes (img : Img) :
    ((img.mode = Mode.RGBA ∨ img.mode = Mode.LA ∨ img.mode = Mode.P) →
      (convertForJPEG img).mode = Mode.RGB ∧ ∀ p ∈ (convertForJPEG img).pix, p.a = 255) ∧
    (img.mode = Mode.RGBA → (convertForJPEG img).pix = img.pix.map blendOverWhite) ∧
    (img.mode = Mode.RGBA → (∀ p ∈ img.pix, p.a = 0) →
      (convertForJPEG img).pix = img.pix.map fun _ => ⟨255, 255, 255, 255⟩) ∧
    (img.mode = Mode.LA → (convertForJPEG img).pix = img.pix.map laToRGB) ∧
    (img.mode = Mode.P →
      (convertForJPEG img).pix = img.pix.map fun p => blendOverWhite (pLookup img.palette p)) := by
  obtain ⟨mo, px, pal⟩ := img
  cases mo with
  | RGB =>
    refine ⟨fun h => ?_, fun h => ?_, fun h _ => ?_, fun h => ?_, fun h => ?_⟩ <;> simp at h
  | L =>
    refine ⟨fun h => ?_, fun h => ?_, fun h _ => ?_, fun h => ?_, fun h => ?_⟩ <;> simp at h
  | RGBA =>
    refine ⟨fun _ => ?_, fun _ => ?_, fun _ hz => ?_, fun h => ?_, fun h => ?_⟩
    · rw [convertForJPEG_RGBA]
      refine ⟨rfl, ?_⟩
      intro p hp
      simp only [List.mem_map] at hp
      obtain ⟨q, _, rfl⟩ := hp
      rfl
    · rw [convertForJPEG_RGBA]
    · rw [convertForJPEG_RGBA]
      exact List.map_congr_left fun p hp => blendOverWhite_transparent p (hz p hp)
    · simp at h
    · simp at h
  | LA =>
    refine ⟨fun _ => ?_, fun h => ?_, fun h _ => ?_, fun _ => ?_, fun h => ?_⟩
    · rw [convertForJPEG_LA]
      refine ⟨rfl, ?_⟩
      intro p hp
      simp only [List.mem_map] at hp
      obtain ⟨q, _, rfl⟩ := hp
      rfl
    · simp at h
    · simp at h
    · rw [convertForJPEG_LA]
    · simp at h
  | P =>
    refine ⟨fun _ => ?_, fun h => ?_, fun h _ => ?_, fun h => ?_, fun _ => ?_⟩
    · rw [convertForJPEG_P]
      refine ⟨rfl, ?_⟩
      intro p hp
      simp only [List.mem_map] at hp
      obtain ⟨q, ⟨r, _, rfl⟩, rfl⟩ := hp
      rfl
    · simp at h
    · simp at h
    · simp at h
    · rw [convertForJPEG_P, List.map_map]
      rfl

/-- C3, witness: a fully transparent RGBA image does come out all white. -/
theorem jpeg_convert_modes_witness :
    (convertForJPEG ⟨Mode.RGBA, [⟨9, 9, 9, 0⟩], []⟩).pix = [⟨255, 255, 255, 255⟩] := by
  have h := (jpeg_convert_modes ⟨Mode.RGBA, [⟨9, 9, 9, 0⟩], []⟩).2.2.1 rfl (by decide)
  rw [h]
  decide

/-- C6, counterexample: with no requested output format, a file named
`photo.jpeg` whose decoded native format is JPEG keeps its original `.jpeg`
extension, while the spec's `prefix + stem + suffix + extensionFor
(effectiveFormat)` rule demands `.jpg` — the code reuses the input extension
instead of deriving it from the effective (native) format. -/
theorem naming_native_format_mismatch :
    outputFilename ⟨some 800, none, true, 95, none, "", ""⟩
        ⟨"photo", ".jpeg", some ⟨100, 50, Mode.RGB, some "JPEG"⟩⟩ = "photo.jpeg" ∧
    specOutputFilename ⟨some 800, none, true, 95, none, "", ""⟩
        ⟨"photo", ".jpeg", some ⟨100, 50, Mode.RGB, some "JPEG"⟩⟩ = "photo.jpg" ∧
    ("photo.jpeg" : String) ≠ "photo.jpg" :=
  ⟨by decide, by decide, by decide⟩

/-- C6 (amended): when an output format is supplied (truthy), the produced
filename agrees with the spec's `prefix + stem + suffix +
extensionFor(outputFormat)` rule; when it is not, the code reuses the input
file's own extension verbatim — the image's native format never influences the
output name (it is used only for encoding). -/
theorem naming_rule (cfg : Config) (f : InputFile) :
    (strTruthy cfg.outputFormat = true → outputFilename cfg f = specOutputFilename cfg f) ∧
    (strTruthy cfg.outputFormat = false →
      outputFilename cfg f = cfg.pre ++ f.stem ++ cfg.suf ++ f.ext) := by
  constructor
  · intro h
    rcases hc : cfg.outputFormat with _ | s
    · rw [hc] at h
      simp [strTruthy] at h
    · rw [hc] at h
      unfold outputFilename specOutputFilename specExtensionFor effectiveFormat
      rw [hc]
      simp [h]
  · intro h
    unfold outputFilename
    simp [h]

/-- C6, witness: with outputFormat JPEG the code's name and the spec's name
coincide (prefix and suffix included). -/
theorem naming_rule_witness :
    outputFilename ⟨some 800, none, true, 95, some "JPEG", "th_", "_sm"⟩
        ⟨"pic", ".png", some ⟨8, 8, Mode.RGB, some "PNG"⟩⟩ =
      specOutputFilename ⟨some 800, none, true, 95, some "JPEG", "th_", "_sm"⟩
        ⟨"pic", ".png", some ⟨8, 8, Mode.RGB, some "PNG"⟩⟩ :=
  (naming_rule _ _).1 (by decide)

/-- C8: when the effective output format is not JPEG/JPG, the save call built
by `resize_image` is completely independent of the quality parameter — the
image is passed through unconverted, no quality argument and no optimize flag
are given to the encoder, so two runs differing only in quality are
identical. -/
theorem non_jpeg_quality_independent (resized : Img)
    (outputFormat nativeFormat : Option String) (q1 q2 : ℕ)
    (h : isJpegName (effectiveFormat outputFormat nativeFormat) = false) :
    saveStep resized outputFormat nativeFormat q1 =
      saveStep resized outputFormat nativeFormat q2 := by
  simp [saveStep, h]

/-- C8, witness: PNG output with qualities 10 and 95 produces the same save
call. -/
theorem non_jpeg_quality_independent_witness :
    saveStep ⟨Mode.RGB, [⟨1, 2, 3, 255⟩], []⟩ (some "PNG") none 10 =
      saveStep ⟨Mode.RGB, [⟨1, 2, 3, 255⟩], []⟩ (some "PNG") none 95 :=
  non_jpeg_quality_independent _ _ _ _ _ (by decide)

end ImageResizer
